import Mathlib

/-!
Shallow embedding of the Bias Quell browser extension's content-side
rewrite/revert pipeline (content.js), the background toggle coordinator
(background.js) and the selection/full-article service-worker pipeline
(src/service-worker.js), together with proofs of the specified properties.

DOM elements are represented by natural-number identifiers; the page is a
total assignment of visible text, background colour and attachment status
to identifiers; the identity-keyed JS Map `originalTextMap` is an
association list in insertion order.  The external rewriter capability is
an oracle `Nat → String → Option String` (`none` models a rejected
promise).
-/

namespace BiasQuell

/-- Whitespace predicate used by the JavaScript string trim operation. -/
def wsChar (c : Char) : Bool := c.isWhitespace

/-- List-level trim: drop whitespace from the front, then from the back. -/
def trimChars (l : List Char) : List Char :=
  ((l.dropWhile wsChar).reverse.dropWhile wsChar).reverse

/-- JavaScript `String.prototype.trim` as used by content.js
(`element.textContent.trim()`, `neutralText.trim()`). -/
def jsTrim (s : String) : String := String.mk (trimChars s.data)

/-- JS `Map.has` on the identity-keyed `originalTextMap` of content.js,
with elements as `Nat` identifiers and the map as an assoc list. -/
def mapHas (m : List (Nat × String)) (k : Nat) : Bool :=
  m.any (fun p => decide (p.1 = k))

/-- JS `Map.get` (first matching key; keys are unique in a JS Map). -/
def mapGet (m : List (Nat × String)) (k : Nat) : Option String :=
  (m.find? (fun p => decide (p.1 = k))).map Prod.snd

/-- JS `Map.set`: overwrite in place when the key is present, append
at the end otherwise. -/
def mapSet (m : List (Nat × String)) (k : Nat) (v : String) :
    List (Nat × String) :=
  if mapHas m k then m.map (fun p => if p.1 = k then (k, v) else p)
  else m ++ [(k, v)]

/-- Keys of the ledger, in insertion order. -/
def ledgerKeys (m : List (Nat × String)) : List Nat := m.map Prod.fst

/-- The observable state of the page from the content script's point of
view: visible text, background colour (the highlight marker), whether the
node is still attached to the document (`parentNode` non-null), and the
`originalTextMap` ledger. -/
structure PageState where
  text : Nat → String
  bg : Nat → String
  attached : Nat → Bool
  ledger : List (Nat × String)

/-- content.js: `const MIN_TEXT_LENGTH = 30`. -/
def MIN_TEXT_LENGTH : Nat := 30

/-- content.js: `const BATCH_SIZE = 15`. -/
def BATCH_SIZE : Nat := 15

/-- content.js: `const HIGHLIGHT_COLOR = '#ffffe0'`. -/
def HIGHLIGHT_COLOR : String := "#ffffe0"

/-- content.js lines 51-56: an element passes the candidate filter when
`originalText.length >= MIN_TEXT_LENGTH && !originalTextMap.has(element)`
with `originalText = element.textContent.trim()`. -/
def selectorIncludes (s : PageState) (e : Nat) : Bool :=
  decide (MIN_TEXT_LENGTH ≤ (jsTrim (s.text e)).length) && !(mapHas s.ledger e)

/-- content.js lines 48-56: build `elementsForBatching` from the ordered
`querySelectorAll` result by the candidate filter. -/
def selectCandidates (s : PageState) (elems : List Nat) : List Nat :=
  elems.filter (selectorIncludes s)

/-- Structural-recursion device for `chunkList`: the fuel starts at the
length of the list, which suffices for any positive batch size because
every step drops at least one element. -/
def chunkListAux : Nat → Nat → List Nat → List (List Nat)
  | _, _, [] => []
  | 0, _, _ :: _ => []
  | fuel + 1, bs, x :: xs =>
    ((x :: xs).take bs) :: chunkListAux fuel bs ((x :: xs).drop bs)

/-- content.js line 62: `elementsForBatching.slice(i, i + BATCH_SIZE)` for
`i = 0, BATCH_SIZE, 2*BATCH_SIZE, ...` — consecutive chunks of at most the
batch size (the source's batch size is the positive constant 15). -/
def chunkList (bs : Nat) (l : List Nat) : List (List Nat) :=
  chunkListAux l.length bs l

/-- The trimmed text of element `e` in state `s` — the `originalText`
snapshot the batch takes (content.js line 66). -/
def origQ (s : PageState) (e : Nat) : String := jsTrim (s.text e)

/-- The trimmed rewriter output for element `e` when its request succeeds
(for a failed request this placeholder equals the original, which is never
used in that case). -/
def finalQ (rw : Nat → String → Option String) (s : PageState) (e : Nat) :
    String :=
  match rw e (origQ s e) with
  | some t => jsTrim t
  | none => origQ s e

/-- Whether processing element `e` from state `s` mutates the page: the
request succeeds and its trimmed output differs from the trimmed
original. -/
def mutQ (rw : Nat → String → Option String) (s : PageState) (e : Nat) :
    Bool :=
  match rw e (origQ s e) with
  | some t => decide (jsTrim t ≠ origQ s e)
  | none => false

/-- Outcome of one settled rewrite promise of a batch (content.js lines
65-78): a fulfilled promise carries `{element, originalText,
finalNeutralText}` where the original is the trimmed snapshot text and the
final text is the trimmed rewriter output; a rejected promise is caught
and returns `{element, skip: true}`. -/
inductive RwResult where
  | ok (e : Nat) (orig finalNeutral : String)
  | skip (e : Nat)

/-- The element a result refers to. -/
def resElem : RwResult → Nat
  | .ok e _ _ => e
  | .skip e => e

/-- content.js lines 64-78: build the settled result for one element of the
batch.  `rw` models `rewriter.rewrite` (with `none` a rejected promise);
the call receives the trimmed current text and the fulfilled value is
trimmed (`neutralText.trim()`). -/
def mkResult (rw : Nat → String → Option String) (s : PageState) (e : Nat) :
    RwResult :=
  match rw e (origQ s e) with
  | some t => .ok e (origQ s e) (jsTrim t)
  | none => .skip e

/-- content.js lines 84-96: apply one settled result to the DOM.  A skipped
result or an unchanged text (`finalNeutralText === originalText`) is passed
over; otherwise the original is recorded in the ledger, the visible text is
replaced, the highlight marker is applied and the count is incremented. -/
def applyOne : PageState × Nat → RwResult → PageState × Nat
  | (s, c), .skip _ => (s, c)
  | (s, c), .ok e orig finalNeutral =>
    if finalNeutral = orig then (s, c)
    else
      ({ s with
          ledger := mapSet s.ledger e orig,
          text := fun x => if x = e then finalNeutral else s.text x,
          bg := fun x => if x = e then HIGHLIGHT_COLOR else s.bg x }, c + 1)

/-- content.js lines 61-102: process the chunks in order.  Within a chunk
all results are computed from the state at the start of the chunk
(`batch.map` runs before any of the chunk's mutations is applied), then
applied in order; after a chunk one cooperative yield (`setTimeout`)
happens exactly when more elements remain (`i + BATCH_SIZE <
elementsForBatching.length`).  Returns the final state, the rewrite count
and the number of yields taken. -/
def runChunks (rw : Nat → String → Option String) :
    PageState → List (List Nat) → PageState × Nat × Nat
  | s, [] => (s, 0, 0)
  | s, batch :: rest =>
    let out := (batch.map (mkResult rw s)).foldl applyOne (s, 0)
    let next := runChunks rw out.1 rest
    (next.1, out.2 + next.2.1, (if rest = [] then 0 else 1) + next.2.2)

/-- content.js lines 46-105: `quellBiasOnPage` — filter the candidates,
then run them in batches of `BATCH_SIZE`. -/
def quellBiasOnPage (rw : Nat → String → Option String) (s : PageState)
    (elems : List Nat) : PageState × Nat × Nat :=
  runChunks rw s (chunkList BATCH_SIZE (selectCandidates s elems))

/-- The apply operation on one unit, as performed by content.js lines
66 and 84-96 for a single element: the recorded original is the trimmed
current text, and nothing happens when the final text equals it. -/
def applyQuell (s : PageState) (e : Nat) (finalNeutral : String) : PageState :=
  if finalNeutral = jsTrim (s.text e) then s
  else
    { s with
        ledger := mapSet s.ledger e (jsTrim (s.text e)),
        text := fun x => if x = e then finalNeutral else s.text x,
        bg := fun x => if x = e then HIGHLIGHT_COLOR else s.bg x }

/-- A sequence of apply calls, folded left over the page state. -/
def applyFold (s : PageState) (applies : List (Nat × String)) : PageState :=
  applies.foldl (fun st p => applyQuell st p.1 p.2) s

/-- content.js lines 112-121: restore one ledger entry, guarded by
`element.parentNode` — a detached element is left as is; an attached one
gets its recorded original text back and a transparent background (the
clone-and-replace also drops the hover handlers, which are not part of the
observable state modelled here). -/
def revertStep (st : PageState) (p : Nat × String) : PageState :=
  if st.attached p.1 then
    { st with
        text := fun x => if x = p.1 then p.2 else st.text x,
        bg := fun x => if x = p.1 then "transparent" else st.bg x }
  else st

/-- content.js lines 109-127: `revertChanges` — walk the ledger entries in
insertion order restoring the attached ones, then clear the ledger
unconditionally (the rewriter handle is also nulled; sessions are not part
of the modelled state). -/
def revertChanges (s : PageState) : PageState :=
  { s.ledger.foldl revertStep s with ledger := [] }

/-- The response object the content script passes to `sendResponse`
(content.js lines 130-156). -/
structure ContentResponse where
  success : Bool
  changesMade : Option Nat
  error : Option String
  action : Option String
deriving DecidableEq

/-- content.js line 140: the initialization failure message. -/
def initFailMsg : String := "AI API initialization failed. Check console for details."

/-- content.js lines 130-156: the `RUN_FULL_QUELL` message handler.
`rewriterAvailable` models `initializeRewriter()` succeeding (the
`Rewriter` capability present and `Rewriter.create` not throwing). -/
def handleRunFullQuell (rewriterAvailable : Bool)
    (rw : Nat → String → Option String) (elems : List Nat) (s : PageState)
    (isActive : Bool) : PageState × ContentResponse :=
  if isActive then
    if rewriterAvailable then
      let out := quellBiasOnPage rw s elems
      (out.1, ⟨true, some out.2.1, none, some "ACTIVATED"⟩)
    else
      (s, ⟨false, none, some initFailMsg, none⟩)
  else
    (revertChanges s, ⟨true, some 0, none, some "DEACTIVATED"⟩)

/-- The response object the background script passes back to the popup
(background.js lines 19-48). -/
structure BgResponse where
  success : Bool
  changesMade : Option Nat
  error : Option String
  action : Option String
deriving DecidableEq

/-- background.js lines 19-48: the `TOGGLE_QUELL` handler.  It persists
`isQuellActive := newState` first (overwriting `persistedBefore`, which
the handler never reads), then messages the content script;
when the message round-trip works (`commOk`) it relays
`contentResponse.changesMade` with `success: true` without inspecting
`contentResponse.success`; when the round-trip itself fails it reports a
content-script error.  Returns the persisted flag, the page state and the
response sent to the popup. -/
def handleToggleQuell (commOk rewriterAvailable : Bool)
    (rw : Nat → String → Option String) (elems : List Nat)
    (persistedBefore : Bool) (s : PageState) (newState : Bool) :
    Bool × PageState × BgResponse :=
  let persisted := newState
  if commOk then
    let out := handleRunFullQuell rewriterAvailable rw elems s newState
    (persisted, out.1,
      ⟨true, out.2.changesMade, none,
        some (if newState then "ACTIVATED" else "DEACTIVATED")⟩)
  else
    (persisted, s, ⟨false, none, some "Content Script Error: message failed", none⟩)

/-- Observable effects of the service-worker pipeline
(src/src/service-worker.js): status updates, error display, result
display, session creations/invocations/destructions. -/
inductive SwEffect where
  | statusUpdate (msg : String)
  | displayError (msg : String)
  | displayResult (originalText finalText : String)
  | createPromptSession
  | promptInvoke (prompt : String)
  | createRewriterSession
  | rewriteInvoke (input : String)
  | destroyPromptSession
  | destroyRewriterSession
deriving DecidableEq

/-- Oracles for the two external AI capabilities used by
`processTextWithAI` (`error` models a thrown/rejected call). -/
structure AIOracles where
  promptCreate : Except String Unit
  promptStream : String → Except String String
  rewriterCreate : Except String Unit
  rewriteStream : String → Except String String

/-- src/src/service-worker.js line 29: the too-short error message. -/
def tooShortMsg : String :=
  "Text is too short. Please select or extract substantial article content."

/-- src/src/service-worker.js line 69: prefix of every error display. -/
def errPrefix : String := "AI Processing failed. Error: "

/-- src/src/service-worker.js line 38: the Phase-1 prompt built from the
raw text. -/
def mkPrompt (rawText : String) : String :=
  "Rewrite the following text to remove all political and financial bias, presenting only the verifiable facts:\n\n---\n" ++ rawText

/-- src/src/service-worker.js lines 22-75: `processTextWithAI` as the list
of observable effects it produces.  The length guard throws before the
first status update and before any session is created; the catch block
displays the error; the finally block destroys whichever sessions were
created. -/
def processTextWithAI (o : AIOracles) (rawText : String) : List SwEffect :=
  if rawText.length < 50 then
    [SwEffect.displayError (errPrefix ++ tooShortMsg)]
  else
    [SwEffect.statusUpdate "Phase 1/2: Initializing Bias Quell AI model...",
     SwEffect.createPromptSession] ++
    match o.promptCreate with
    | .error m => [SwEffect.displayError (errPrefix ++ m)]
    | .ok _ =>
      [SwEffect.statusUpdate "Phase 1/2: Analyzing article for facts (Prompt API)...",
       SwEffect.promptInvoke (mkPrompt rawText)] ++
      match o.promptStream (mkPrompt rawText) with
      | .error m =>
        [SwEffect.displayError (errPrefix ++ m), SwEffect.destroyPromptSession]
      | .ok cleanFacts =>
        [SwEffect.statusUpdate "Phase 2/2: Polishing and formatting facts (Rewriter API)...",
         SwEffect.createRewriterSession] ++
        match o.rewriterCreate with
        | .error m =>
          [SwEffect.displayError (errPrefix ++ m), SwEffect.destroyPromptSession]
        | .ok _ =>
          [SwEffect.rewriteInvoke cleanFacts] ++
          match o.rewriteStream cleanFacts with
          | .error m =>
            [SwEffect.displayError (errPrefix ++ m),
             SwEffect.destroyPromptSession, SwEffect.destroyRewriterSession]
          | .ok finalText =>
            [SwEffect.displayResult rawText finalText,
             SwEffect.destroyPromptSession, SwEffect.destroyRewriterSession]

/-- An effect that creates or invokes an AI session. -/
def isSessionEffect : SwEffect → Bool
  | .createPromptSession => true
  | .createRewriterSession => true
  | .promptInvoke _ => true
  | .rewriteInvoke _ => true
  | _ => false

/-- An effect that renders a result. -/
def isResultEffect : SwEffect → Bool
  | .displayResult _ _ => true
  | _ => false

/-! ### Sample inputs shared by witnesses and counterexamples -/

/-- A rewrite oracle whose every request fails. -/
def rwNone : Nat → String → Option String := fun _ _ => none

/-- A rewrite oracle that always returns the same neutral text. -/
def rwConst : Nat → String → Option String := fun _ _ => some "NEUTRAL"

/-- A page with no text, no markers, everything attached, empty ledger. -/
def emptyPage : PageState := ⟨fun _ => "", fun _ => "", fun _ => true, []⟩

/-- A page whose every element holds the same 30-character text (exactly
the minimum length threshold), with an empty ledger. -/
def thresholdPage : PageState :=
  ⟨fun _ => "abcdefghijklmnopqrstuvwxyz0123", fun _ => "", fun _ => true, []⟩

/-- Oracles for the service-worker pipeline that always succeed. -/
def okOracles : AIOracles :=
  ⟨Except.ok (), fun t => Except.ok t, Except.ok (), fun t => Except.ok t⟩

/-- A page with one whitespace-padded text, everything attached, empty
ledger. -/
def paddedPage : PageState :=
  ⟨fun _ => " biased claim ", fun _ => "", fun _ => true, []⟩

/-- The ledger entry one settled result contributes (none for a skip or an
unchanged text). -/
def entryOf : RwResult → Option (Nat × String)
  | .ok e o f => if f = o then none else some (e, o)
  | .skip _ => none

/-- What applying one settled result guarantees about the final state
`out`, relative to the state `s` the result was applied from. -/
def resOutcome (s out : PageState) : RwResult → Prop
  | .ok e o f =>
    (f ≠ o → out.text e = f ∧ out.bg e = HIGHLIGHT_COLOR) ∧
    (f = o → out.text e = s.text e ∧ out.bg e = s.bg e)
  | .skip e => out.text e = s.text e ∧ out.bg e = s.bg e

/-! ### Reversion lemmas -/

theorem foldl_revertStep_attached (L : List (Nat × String)) (st : PageState) :
    (L.foldl revertStep st).attached = st.attached := by
  induction L generalizing st with
  | nil => rfl
  | cons p L ih =>
    simp only [List.foldl_cons]
    rw [ih]
    unfold revertStep
    split <;> rfl

theorem foldl_revertStep_ledger (L : List (Nat × String)) (st : PageState) :
    (L.foldl revertStep st).ledger = st.ledger := by
  induction L generalizing st with
  | nil => rfl
  | cons p L ih =>
    simp only [List.foldl_cons]
    rw [ih]
    unfold revertStep
    split <;> rfl

theorem revertStep_skip (st : PageState) (p : Nat × String) (e : Nat)
    (h : p.1 = e → st.attached e = false) :
    (revertStep st p).text e = st.text e ∧ (revertStep st p).bg e = st.bg e := by
  unfold revertStep
  by_cases hp : st.attached p.1 = true
  · have hne : ¬ e = p.1 := by
      intro he
      have hf := h he.symm
      rw [he] at hf
      rw [hf] at hp
      exact Bool.noConfusion hp
    simp [hp, hne]
  · simp [hp]

theorem foldl_revertStep_detached (L : List (Nat × String)) (st : PageState)
    (e : Nat) (h : st.attached e = false) :
    (L.foldl revertStep st).text e = st.text e ∧
    (L.foldl revertStep st).bg e = st.bg e := by
  induction L generalizing st with
  | nil => exact ⟨rfl, rfl⟩
  | cons p L ih =>
    simp only [List.foldl_cons]
    have hst : (revertStep st p).attached e = false := by
      unfold revertStep
      split <;> simpa using h
    obtain ⟨h1, h2⟩ := ih (revertStep st p) hst
    obtain ⟨g1, g2⟩ := revertStep_skip st p e (fun _ => h)
    exact ⟨h1.trans g1, h2.trans g2⟩

theorem foldl_revertStep_not_mem (L : List (Nat × String)) (st : PageState)
    (e : Nat) (h : e ∉ L.map Prod.fst) :
    (L.foldl revertStep st).text e = st.text e ∧
    (L.foldl revertStep st).bg e = st.bg e := by
  induction L generalizing st with
  | nil => exact ⟨rfl, rfl⟩
  | cons p L ih =>
    simp only [List.map_cons, List.mem_cons] at h
    push_neg at h
    simp only [List.foldl_cons]
    obtain ⟨h1, h2⟩ := ih (revertStep st p) h.2
    have hne : ¬ e = p.1 := h.1
    have g : (revertStep st p).text e = st.text e ∧
        (revertStep st p).bg e = st.bg e := by
      unfold revertStep
      split <;> simp [hne]
    exact ⟨h1.trans g.1, h2.trans g.2⟩

theorem foldl_revertStep_restore (L : List (Nat × String)) (st : PageState)
    (e : Nat) (o : String) (hmem : (e, o) ∈ L)
    (hnd : (L.map Prod.fst).Nodup) (hatt : st.attached e = true) :
    (L.foldl revertStep st).text e = o := by
  induction L generalizing st with
  | nil => cases hmem
  | cons p L ih =>
    simp only [List.map_cons, List.nodup_cons] at hnd
    rcases List.mem_cons.mp hmem with heq | htail
    · subst heq
      simp only [List.foldl_cons]
      have hstep : (revertStep st (e, o)).text e = o := by
        unfold revertStep
        simp [hatt]
      have huntouched := foldl_revertStep_not_mem L (revertStep st (e, o)) e hnd.1
      exact huntouched.1.trans hstep
    · simp only [List.foldl_cons]
      have hne : p.1 ≠ e := by
        intro hpe
        exact hnd.1 (hpe ▸ List.mem_map_of_mem Prod.fst htail)
      have hatt2 : (revertStep st p).attached e = true := by
        unfold revertStep
        split <;> simpa using hatt
      exact ih (revertStep st p) htail hnd.2 hatt2

theorem revertChanges_ledger (s : PageState) : (revertChanges s).ledger = [] := rfl

theorem revertChanges_of_ledger_nil (s : PageState) (h : s.ledger = []) :
    revertChanges s = s := by
  obtain ⟨t, b, a, L⟩ := s
  simp only at h
  subst h
  rfl

/-! ### Chunking lemmas -/

theorem chunkListAux_join (b : Nat) :
    ∀ (fuel : Nat) (l : List Nat), l.length ≤ fuel →
      (chunkListAux fuel (b + 1) l).flatten =l := by
  intro fuel
  induction fuel with
  | zero =>
    intro l h
    cases l with
    | nil => rfl
    | cons x xs => simp at h
  | succ fuel ih =>
    intro l h
    cases l with
    | nil => rfl
    | cons x xs =>
      simp only [chunkListAux, List.flatten_cons]
      rw [ih ((x :: xs).drop (b + 1))
        (by simp only [List.drop_succ_cons, List.length_drop]
            simp only [List.length_cons] at h
            omega)]
      exact List.take_append_drop _ _

theorem chunkList_join (b : Nat) (l : List Nat) :
    (chunkList (b + 1) l).flatten =l :=
  chunkListAux_join b l.length l le_rfl

theorem chunkListAux_sizes (b : Nat) :
    ∀ (fuel : Nat) (l : List Nat), l.length ≤ fuel →
      ∀ c ∈ chunkListAux fuel (b + 1) l, c.length ≤ b + 1 ∧ c ≠ [] := by
  intro fuel
  induction fuel with
  | zero =>
    intro l h c hc
    cases l with
    | nil => cases hc
    | cons x xs => simp at h
  | succ fuel ih =>
    intro l h c hc
    cases l with
    | nil => cases hc
    | cons x xs =>
      simp only [chunkListAux, List.mem_cons] at hc
      rcases hc with hc | hc
      · subst hc
        constructor
        · simpa using List.length_take_le (b + 1) (x :: xs)
        · simp [List.take_succ_cons]
      · exact ih ((x :: xs).drop (b + 1))
          (by simp only [List.drop_succ_cons, List.length_drop]
              simp only [List.length_cons] at h
              omega) c hc

theorem chunkList_sizes (b : Nat) (l : List Nat) :
    ∀ c ∈ chunkList (b + 1) l, c.length ≤ b + 1 ∧ c ≠ [] :=
  chunkListAux_sizes b l.length l le_rfl

theorem runChunks_yields (rw : Nat → String → Option String)
    (chunks : List (List Nat)) (s : PageState) :
    (runChunks rw s chunks).2.2 = chunks.length - 1 := by
  induction chunks generalizing s with
  | nil => rfl
  | cons c rest ih =>
    simp only [runChunks]
    rw [ih]
    cases rest with
    | nil => rfl
    | cons r rs =>
      rw [if_neg (List.cons_ne_nil r rs)]
      simp only [List.length_cons]
      omega

/-! ### Trim lemmas -/

theorem trimChars_eq_rdrop (l : List Char) :
    trimChars l = List.rdropWhile wsChar (l.dropWhile wsChar) := rfl

theorem trimChars_idem (l : List Char) :
    trimChars (trimChars l) = trimChars l := by
  simp only [trimChars_eq_rdrop]
  have hd_self : (l.dropWhile wsChar).dropWhile wsChar = l.dropWhile wsChar :=
    List.dropWhile_idempotent wsChar l
  have hdrop : (List.rdropWhile wsChar (l.dropWhile wsChar)).dropWhile wsChar =
      List.rdropWhile wsChar (l.dropWhile wsChar) := by
    rcases hm : List.rdropWhile wsChar (l.dropWhile wsChar) with _ | ⟨a, m⟩
    · rfl
    · have hpre : a :: m <+: l.dropWhile wsChar :=
        hm ▸ List.rdropWhile_prefix wsChar (l.dropWhile wsChar)
      have hlen : 0 < (l.dropWhile wsChar).length :=
        lt_of_lt_of_le (by simp) hpre.length_le
      have ha : (l.dropWhile wsChar).get ⟨0, hlen⟩ = a := by
        have h0 : (0 : Nat) < (a :: m).length := by simp
        have hel := hpre.getElem h0
        simpa using hel.symm
      have hhead := List.dropWhile_eq_self_iff.mp hd_self hlen
      rw [ha] at hhead
      rw [List.dropWhile_cons, if_neg hhead]
  rw [hdrop, List.rdropWhile_idempotent]

theorem jsTrim_idem (s : String) : jsTrim (jsTrim s) = jsTrim s :=
  congrArg String.mk (trimChars_idem s.data)

/-! ### Ledger-map lemmas -/

theorem mapHas_iff_mem (m : List (Nat × String)) (k : Nat) :
    mapHas m k = true ↔ k ∈ m.map Prod.fst := by
  simp only [mapHas, List.any_eq_true, decide_eq_true_eq, List.mem_map]

theorem mapHas_eq_false_iff (m : List (Nat × String)) (k : Nat) :
    mapHas m k = false ↔ k ∉ m.map Prod.fst := by
  rw [← mapHas_iff_mem]
  cases h : mapHas m k <;> simp [h]

theorem mapHas_append (m₁ m₂ : List (Nat × String)) (k : Nat) :
    mapHas (m₁ ++ m₂) k = (mapHas m₁ k || mapHas m₂ k) := by
  simp [mapHas, List.any_append]

theorem mapSet_fresh (m : List (Nat × String)) (k : Nat) (v : String)
    (h : mapHas m k = false) : mapSet m k v = m ++ [(k, v)] := by
  simp [mapSet, h]

theorem mapGet_append_left (m₁ m₂ : List (Nat × String)) (k : Nat)
    (h : mapHas m₁ k = true) : mapGet (m₁ ++ m₂) k = mapGet m₁ k := by
  unfold mapGet
  rw [List.find?_append]
  have hsome : (m₁.find? (fun p => decide (p.1 = k))).isSome := by
    rw [List.find?_isSome]
    simpa [mapHas, List.any_eq_true] using h
  obtain ⟨v, hv⟩ := Option.isSome_iff_exists.mp hsome
  rw [hv]
  rfl

theorem mapGet_append_right_none (m₁ m₂ : List (Nat × String)) (k : Nat)
    (h : mapHas m₂ k = false) : mapGet (m₁ ++ m₂) k = mapGet m₁ k := by
  unfold mapGet
  rw [List.find?_append]
  have hnone : m₂.find? (fun p => decide (p.1 = k)) = none := by
    rw [List.find?_eq_none]
    intro p hp
    simp only [decide_eq_true_eq]
    intro hpk
    rw [mapHas_eq_false_iff] at h
    exact h (hpk ▸ List.mem_map_of_mem Prod.fst hp)
  rw [hnone]
  cases m₁.find? (fun p => decide (p.1 = k)) <;> rfl

theorem mapGet_append_left_none (m₁ m₂ : List (Nat × String)) (k : Nat)
    (h : mapHas m₁ k = false) : mapGet (m₁ ++ m₂) k = mapGet m₂ k := by
  unfold mapGet
  rw [List.find?_append]
  have hnone : m₁.find? (fun p => decide (p.1 = k)) = none := by
    rw [List.find?_eq_none]
    intro p hp
    simp only [decide_eq_true_eq]
    intro hpk
    rw [mapHas_eq_false_iff] at h
    exact h (hpk ▸ List.mem_map_of_mem Prod.fst hp)
  rw [hnone]
  rfl

/-! ### Batch application lemmas -/

theorem resOutcome_congr (s s' out : PageState) (r : RwResult)
    (ht : s'.text (resElem r) = s.text (resElem r))
    (hb : s'.bg (resElem r) = s.bg (resElem r)) :
    resOutcome s' out r → resOutcome s out r := by
  cases r with
  | ok e o f =>
    intro ⟨h1, h2⟩
    refine ⟨h1, fun hf => ?_⟩
    obtain ⟨g1, g2⟩ := h2 hf
    exact ⟨ht ▸ g1, hb ▸ g2⟩
  | skip e =>
    intro ⟨h1, h2⟩
    exact ⟨ht ▸ h1, hb ▸ h2⟩

theorem foldl_applyOne_spec (results : List RwResult) :
    ∀ (s : PageState) (c : Nat),
      (results.map resElem).Nodup →
      (∀ r ∈ results, mapHas s.ledger (resElem r) = false) →
      (results.foldl applyOne (s, c)).1.attached = s.attached ∧
      (results.foldl applyOne (s, c)).1.ledger =
        s.ledger ++ results.filterMap entryOf ∧
      (results.foldl applyOne (s, c)).2 =
        c + (results.filterMap entryOf).length ∧
      (∀ e, e ∉ results.map resElem →
        (results.foldl applyOne (s, c)).1.text e = s.text e ∧
        (results.foldl applyOne (s, c)).1.bg e = s.bg e) ∧
      (∀ r ∈ results, resOutcome s (results.foldl applyOne (s, c)).1 r) := by
  induction results with
  | nil =>
    intro s c _ _
    exact ⟨rfl, by simp, by simp, fun e _ => ⟨rfl, rfl⟩,
      fun r hr => absurd hr (List.not_mem_nil r)⟩
  | cons r rs ih =>
    intro s c hnd hfresh
    simp only [List.map_cons, List.nodup_cons] at hnd
    obtain ⟨hre, hnd'⟩ := hnd
    have hfresh' : ∀ r' ∈ rs, mapHas s.ledger (resElem r') = false :=
      fun r' hr' => hfresh r' (List.mem_cons_of_mem r hr')
    simp only [List.foldl_cons]
    cases r with
    | skip e =>
      have hstep : applyOne (s, c) (RwResult.skip e) = (s, c) := rfl
      rw [hstep]
      obtain ⟨ha, hl, hc, hu, ho⟩ := ih s c hnd' hfresh'
      refine ⟨ha, ?_, ?_, ?_, ?_⟩
      · simpa [entryOf] using hl
      · simpa [entryOf] using hc
      · intro x hx
        simp only [List.map_cons, List.mem_cons] at hx
        push_neg at hx
        exact hu x hx.2
      · intro r' hr'
        rcases List.mem_cons.mp hr' with hh | ht
        · subst hh
          exact hu e hre
        · exact ho r' ht
    | ok e o f =>
      by_cases hf : f = o
      · have hstep : applyOne (s, c) (RwResult.ok e o f) = (s, c) := by
          simp [applyOne, hf]
        rw [hstep]
        obtain ⟨ha, hl, hc, hu, ho⟩ := ih s c hnd' hfresh'
        refine ⟨ha, ?_, ?_, ?_, ?_⟩
        · simpa [entryOf, hf] using hl
        · simpa [entryOf, hf] using hc
        · intro x hx
          simp only [List.map_cons, List.mem_cons] at hx
          push_neg at hx
          exact hu x hx.2
        · intro r' hr'
          rcases List.mem_cons.mp hr' with hh | ht
          · subst hh
            exact ⟨fun hne => absurd hf hne, fun _ => hu e hre⟩
          · exact ho r' ht
      · have hefresh : mapHas s.ledger e = false :=
          hfresh (RwResult.ok e o f) (List.mem_cons_self _ _)
        have hstep : applyOne (s, c) (RwResult.ok e o f) =
            ({ s with
                ledger := s.ledger ++ [(e, o)],
                text := fun x => if x = e then f else s.text x,
                bg := fun x => if x = e then HIGHLIGHT_COLOR else s.bg x },
              c + 1) := by
          simp [applyOne, hf, mapSet_fresh s.ledger e o hefresh]
        rw [hstep]
        set s' : PageState :=
          { s with
              ledger := s.ledger ++ [(e, o)],
              text := fun x => if x = e then f else s.text x,
              bg := fun x => if x = e then HIGHLIGHT_COLOR else s.bg x }
          with hs'
        have hfresh2 : ∀ r' ∈ rs, mapHas s'.ledger (resElem r') = false := by
          intro r' hr'
          have h1 := hfresh' r' hr'
          have h2 : mapHas [(e, o)] (resElem r') = false := by
            have hmem : resElem r' ∈ rs.map resElem :=
              List.mem_map_of_mem resElem hr'
            have hne : ¬ e = resElem r' := by
              intro hh
              rw [← hh] at hmem
              exact hre hmem
            simp [mapHas, hne]
          rw [hs']
          simp only [mapHas_append, h1, h2, Bool.or_self]
        obtain ⟨ha, hl, hc, hu, ho⟩ := ih s' (c + 1) hnd' hfresh2
        have htext_ne : ∀ x, ¬ x = e → s'.text x = s.text x := by
          intro x hx
          rw [hs']
          simp [hx]
        have hbg_ne : ∀ x, ¬ x = e → s'.bg x = s.bg x := by
          intro x hx
          rw [hs']
          simp [hx]
        refine ⟨?_, ?_, ?_, ?_, ?_⟩
        · rw [ha, hs']
        · rw [hl, hs']
          simp only [entryOf, if_neg hf, List.filterMap_cons, List.append_assoc,
            List.singleton_append]
        · rw [hc]
          simp only [entryOf, if_neg hf, List.filterMap_cons, List.length_cons]
          omega
        · intro x hx
          simp only [List.map_cons, List.mem_cons] at hx
          push_neg at hx
          obtain ⟨g1, g2⟩ := hu x hx.2
          exact ⟨g1.trans (htext_ne x hx.1), g2.trans (hbg_ne x hx.1)⟩
        · intro r' hr'
          rcases List.mem_cons.mp hr' with hh | ht
          · subst hh
            refine ⟨fun _ => ?_, fun heq => absurd heq hf⟩
            obtain ⟨g1, g2⟩ := hu e hre
            constructor
            · rw [g1, hs']
              simp
            · rw [g2, hs']
              simp
          · have hmem : resElem r' ∈ rs.map resElem :=
              List.mem_map_of_mem resElem ht
            have hne : ¬ resElem r' = e := by
              intro hh
              rw [hh] at hmem
              exact hre hmem
            exact resOutcome_congr s s' _ r' (htext_ne (resElem r') hne)
              (hbg_ne (resElem r') hne) (ho r' ht)

/-! ### Batch and run characterization -/

theorem resElem_mkResult (rw : Nat → String → Option String) (s : PageState)
    (e : Nat) : resElem (mkResult rw s e) = e := by
  unfold mkResult
  cases rw e (origQ s e) <;> rfl

theorem map_resElem_mkResult (rw : Nat → String → Option String)
    (s : PageState) (l : List Nat) :
    (l.map (mkResult rw s)).map resElem = l := by
  induction l with
  | nil => rfl
  | cons x xs ih => simp [resElem_mkResult, ih]

theorem entryOf_mkResult (rw : Nat → String → Option String) (s : PageState)
    (e : Nat) :
    entryOf (mkResult rw s e) =
      if mutQ rw s e then some (e, origQ s e) else none := by
  unfold entryOf mkResult mutQ
  cases h : rw e (origQ s e) with
  | none => rfl
  | some t =>
    by_cases he : jsTrim t = origQ s e
    · simp [he]
    · simp [he]

theorem map_fst_pairs (g : Nat → String) (l : List Nat) :
    (l.map (fun e => (e, g e))).map Prod.fst = l := by
  induction l with
  | nil => rfl
  | cons x xs ih => simp [ih]

theorem filterMap_entryOf_map (rw : Nat → String → Option String)
    (s : PageState) (l : List Nat) :
    (l.map (mkResult rw s)).filterMap entryOf =
      (l.filter (mutQ rw s)).map (fun e => (e, origQ s e)) := by
  induction l with
  | nil => rfl
  | cons x xs ih =>
    simp only [List.map_cons, List.filterMap_cons, entryOf_mkResult,
      List.filter_cons]
    by_cases hx : mutQ rw s x = true
    · simp [hx, ih]
    · simp [hx, ih]

theorem origQ_congr (s s' : PageState) (e : Nat)
    (h : s'.text e = s.text e) : origQ s' e = origQ s e := by
  unfold origQ
  rw [h]

theorem mutQ_congr (rw : Nat → String → Option String) (s s' : PageState)
    (e : Nat) (h : s'.text e = s.text e) : mutQ rw s' e = mutQ rw s e := by
  unfold mutQ
  rw [origQ_congr s s' e h]

theorem finalQ_congr (rw : Nat → String → Option String) (s s' : PageState)
    (e : Nat) (h : s'.text e = s.text e) : finalQ rw s' e = finalQ rw s e := by
  unfold finalQ
  rw [origQ_congr s s' e h]

theorem applyBatch_spec (rw : Nat → String → Option String)
    (batch : List Nat) (s : PageState) (c : Nat)
    (hnd : batch.Nodup) (hfresh : ∀ e ∈ batch, mapHas s.ledger e = false) :
    ((batch.map (mkResult rw s)).foldl applyOne (s, c)).1.attached =
      s.attached ∧
    ((batch.map (mkResult rw s)).foldl applyOne (s, c)).1.ledger =
      s.ledger ++ (batch.filter (mutQ rw s)).map (fun e => (e, origQ s e)) ∧
    ((batch.map (mkResult rw s)).foldl applyOne (s, c)).2 =
      c + (batch.filter (mutQ rw s)).length ∧
    (∀ e, e ∉ batch →
      ((batch.map (mkResult rw s)).foldl applyOne (s, c)).1.text e = s.text e ∧
      ((batch.map (mkResult rw s)).foldl applyOne (s, c)).1.bg e = s.bg e) ∧
    (∀ e ∈ batch,
      (mutQ rw s e = true →
        ((batch.map (mkResult rw s)).foldl applyOne (s, c)).1.text e =
          finalQ rw s e ∧
        ((batch.map (mkResult rw s)).foldl applyOne (s, c)).1.bg e =
          HIGHLIGHT_COLOR) ∧
      (mutQ rw s e = false →
        ((batch.map (mkResult rw s)).foldl applyOne (s, c)).1.text e =
          s.text e ∧
        ((batch.map (mkResult rw s)).foldl applyOne (s, c)).1.bg e =
          s.bg e)) := by
  have hmap : (batch.map (mkResult rw s)).map resElem = batch :=
    map_resElem_mkResult rw s batch
  have hnd' : ((batch.map (mkResult rw s)).map resElem).Nodup := by
    rw [hmap]
    exact hnd
  have hfresh' : ∀ r ∈ batch.map (mkResult rw s),
      mapHas s.ledger (resElem r) = false := by
    intro r hr
    obtain ⟨e, he, rfl⟩ := List.mem_map.mp hr
    rw [resElem_mkResult]
    exact hfresh e he
  obtain ⟨ha, hl, hc, hu, ho⟩ :=
    foldl_applyOne_spec (batch.map (mkResult rw s)) s c hnd' hfresh'
  refine ⟨ha, ?_, ?_, ?_, ?_⟩
  · rw [hl, filterMap_entryOf_map]
  · rw [hc, filterMap_entryOf_map, List.length_map]
  · intro e he
    exact hu e (by rw [hmap]; exact he)
  · intro e he
    have hout := ho (mkResult rw s e) (List.mem_map_of_mem (mkResult rw s) he)
    revert hout
    unfold mkResult mutQ finalQ resOutcome
    cases h : rw e (origQ s e) with
    | none =>
      intro hout
      exact ⟨fun hmut => absurd hmut (by simp), fun _ => hout⟩
    | some t =>
      intro hout
      by_cases he2 : jsTrim t = origQ s e
      · refine ⟨fun hmut => absurd hmut (by simp [he2]), fun _ => hout.2 he2⟩
      · refine ⟨fun _ => hout.1 he2, fun hmut => absurd hmut (by simp [he2])⟩

theorem runChunks_spec (rw : Nat → String → Option String) :
    ∀ (chunks : List (List Nat)) (s : PageState),
      chunks.flatten.Nodup →
      (∀ e ∈ chunks.flatten, mapHas s.ledger e = false) →
      (runChunks rw s chunks).1.attached = s.attached ∧
      (runChunks rw s chunks).1.ledger = s.ledger ++
        (chunks.flatten.filter (mutQ rw s)).map (fun e => (e, origQ s e)) ∧
      (runChunks rw s chunks).2.1 =
        (chunks.flatten.filter (mutQ rw s)).length ∧
      (∀ e, e ∉ chunks.flatten →
        (runChunks rw s chunks).1.text e = s.text e ∧
        (runChunks rw s chunks).1.bg e = s.bg e) ∧
      (∀ e ∈ chunks.flatten,
        (mutQ rw s e = true →
          (runChunks rw s chunks).1.text e = finalQ rw s e ∧
          (runChunks rw s chunks).1.bg e = HIGHLIGHT_COLOR) ∧
        (mutQ rw s e = false →
          (runChunks rw s chunks).1.text e = s.text e ∧
          (runChunks rw s chunks).1.bg e = s.bg e)) := by
  intro chunks
  induction chunks with
  | nil =>
    intro s _ _
    exact ⟨rfl, by simp [runChunks], by simp [runChunks], fun e _ => ⟨rfl, rfl⟩,
      by simp⟩
  | cons batch rest ih =>
    intro s hnd hfresh
    simp only [List.flatten_cons] at hnd hfresh ⊢
    have hnd3 := List.nodup_append.mp hnd
    obtain ⟨hndb, hndr, hdisj⟩ := hnd3
    have hfreshb : ∀ e ∈ batch, mapHas s.ledger e = false :=
      fun e he => hfresh e (List.mem_append_left _ he)
    obtain ⟨ba, bl, bc, bu, bo⟩ := applyBatch_spec rw batch s 0 hndb hfreshb
    set s1 : PageState :=
      ((batch.map (mkResult rw s)).foldl applyOne (s, 0)).1 with hs1
    have hfreshr : ∀ e ∈ rest.flatten, mapHas s1.ledger e = false := by
      intro e he
      rw [bl, mapHas_append]
      have h1 : mapHas s.ledger e = false :=
        hfresh e (List.mem_append_right _ he)
      have h2 : mapHas
          ((batch.filter (mutQ rw s)).map (fun x => (x, origQ s x))) e =
          false := by
        rw [mapHas_eq_false_iff, map_fst_pairs]
        intro hmem
        exact hdisj (List.mem_of_mem_filter hmem) he
      rw [h1, h2]
      rfl
    obtain ⟨ra, rl, rc, ru, ro⟩ := ih s1 hndr hfreshr
    -- the text of every element of the later chunks is unchanged by the
    -- first batch, so all s1-relative descriptions agree with s
    have htext1 : ∀ e ∈ rest.flatten, s1.text e = s.text e := by
      intro e he
      exact (bu e (fun hb => hdisj hb he)).1
    have hbg1 : ∀ e ∈ rest.flatten, s1.bg e = s.bg e := by
      intro e he
      exact (bu e (fun hb => hdisj hb he)).2
    have hfiltc : rest.flatten.filter (mutQ rw s1) =
        rest.flatten.filter (mutQ rw s) :=
      List.filter_congr (fun e he => mutQ_congr rw s s1 e (htext1 e he))
    have hmapc : (rest.flatten.filter (mutQ rw s1)).map
          (fun e => (e, origQ s1 e)) =
        (rest.flatten.filter (mutQ rw s)).map (fun e => (e, origQ s e)) := by
      rw [hfiltc]
      exact List.map_congr_left (fun e he =>
        congrArg (fun v => (e, v))
          (origQ_congr s s1 e (htext1 e (List.mem_of_mem_filter he))))
    -- unfold one step of runChunks
    show (runChunks rw s (batch :: rest)).1.attached = s.attached ∧ _
    simp only [runChunks, ← hs1]
    refine ⟨?_, ?_, ?_, ?_, ?_⟩
    · rw [ra, ba]
    · rw [rl, hmapc, bl, List.filter_append, List.map_append,
        List.append_assoc]
    · rw [rc, hfiltc, bc, List.filter_append, List.length_append]
      omega
    · intro e he
      rw [List.mem_append] at he
      push_neg at he
      obtain ⟨g1, g2⟩ := ru e he.2
      obtain ⟨f1, f2⟩ := bu e he.1
      exact ⟨g1.trans f1, g2.trans f2⟩
    · intro e he
      rw [List.mem_append] at he
      rcases he with hb | hr
      · have hnr : e ∉ rest.flatten := fun hr => hdisj hb hr
        obtain ⟨g1, g2⟩ := ru e hnr
        obtain ⟨f1, f2⟩ := bo e hb
        refine ⟨fun hmut => ?_, fun hmut => ?_⟩
        · obtain ⟨k1, k2⟩ := f1 hmut
          exact ⟨g1.trans k1, g2.trans k2⟩
        · obtain ⟨k1, k2⟩ := f2 hmut
          exact ⟨g1.trans k1, g2.trans k2⟩
      · have hmq : mutQ rw s1 e = mutQ rw s e :=
          mutQ_congr rw s s1 e (htext1 e hr)
        have hfq : finalQ rw s1 e = finalQ rw s e :=
          finalQ_congr rw s s1 e (htext1 e hr)
        obtain ⟨f1, f2⟩ := ro e hr
        refine ⟨fun hmut => ?_, fun hmut => ?_⟩
        · obtain ⟨k1, k2⟩ := f1 (hmq.trans hmut)
          exact ⟨k1.trans hfq, k2⟩
        · obtain ⟨k1, k2⟩ := f2 (hmq.trans hmut)
          exact ⟨k1.trans (htext1 e hr), k2.trans (hbg1 e hr)⟩

/-! ### Whole-run corollaries -/

theorem selectCandidates_nodup (s : PageState) (elems : List Nat)
    (hnd : elems.Nodup) : (selectCandidates s elems).Nodup :=
  hnd.filter _

theorem selectCandidates_fresh (s : PageState) (elems : List Nat) :
    ∀ e ∈ selectCandidates s elems, mapHas s.ledger e = false := by
  intro e he
  have hp := (List.mem_filter.mp he).2
  simp only [selectorIncludes, Bool.and_eq_true, Bool.not_eq_true'] at hp
  exact hp.2

theorem chunkList_flatten_batch (l : List Nat) :
    (chunkList BATCH_SIZE l).flatten = l := chunkList_join 14 l

theorem quellBiasOnPage_spec (rw : Nat → String → Option String)
    (s : PageState) (elems : List Nat) (hnd : elems.Nodup) :
    (quellBiasOnPage rw s elems).1.attached = s.attached ∧
    (quellBiasOnPage rw s elems).1.ledger = s.ledger ++
      ((selectCandidates s elems).filter (mutQ rw s)).map
        (fun e => (e, origQ s e)) ∧
    (quellBiasOnPage rw s elems).2.1 =
      ((selectCandidates s elems).filter (mutQ rw s)).length ∧
    (∀ e, e ∉ selectCandidates s elems →
      (quellBiasOnPage rw s elems).1.text e = s.text e ∧
      (quellBiasOnPage rw s elems).1.bg e = s.bg e) ∧
    (∀ e ∈ selectCandidates s elems,
      (mutQ rw s e = true →
        (quellBiasOnPage rw s elems).1.text e = finalQ rw s e ∧
        (quellBiasOnPage rw s elems).1.bg e = HIGHLIGHT_COLOR) ∧
      (mutQ rw s e = false →
        (quellBiasOnPage rw s elems).1.text e = s.text e ∧
        (quellBiasOnPage rw s elems).1.bg e = s.bg e)) := by
  have hflat : (chunkList BATCH_SIZE (selectCandidates s elems)).flatten =
      selectCandidates s elems := chunkList_flatten_batch _
  have h := runChunks_spec rw (chunkList BATCH_SIZE (selectCandidates s elems))
    s (by rw [hflat]; exact selectCandidates_nodup s elems hnd)
    (by rw [hflat]; exact selectCandidates_fresh s elems)
  rw [hflat] at h
  exact h

theorem quellBiasOnPage_preserves_ledger (rw : Nat → String → Option String)
    (s : PageState) (elems : List Nat) (hnd : elems.Nodup) (k : Nat)
    (hk : mapHas s.ledger k = true) :
    mapGet (quellBiasOnPage rw s elems).1.ledger k = mapGet s.ledger k := by
  obtain ⟨_, hl, _, _, _⟩ := quellBiasOnPage_spec rw s elems hnd
  rw [hl]
  exact mapGet_append_left _ _ k hk

theorem quellBiasOnPage_ledger_keys_nodup (rw : Nat → String → Option String)
    (s : PageState) (elems : List Nat) (hnd : elems.Nodup)
    (hkeys : (ledgerKeys s.ledger).Nodup) :
    (ledgerKeys (quellBiasOnPage rw s elems).1.ledger).Nodup := by
  obtain ⟨_, hl, _, _, _⟩ := quellBiasOnPage_spec rw s elems hnd
  unfold ledgerKeys at hkeys ⊢
  rw [hl, List.map_append, map_fst_pairs]
  rw [List.nodup_append]
  refine ⟨hkeys, ((selectCandidates_nodup s elems hnd).filter _), ?_⟩
  intro k hk1 hk2
  have hc : k ∈ selectCandidates s elems := List.mem_of_mem_filter hk2
  have hfr := selectCandidates_fresh s elems k hc
  rw [mapHas_eq_false_iff] at hfr
  exact hfr hk1

/-! ### Apply-sequence characterization (spec §4.4 apply over one unit) -/

theorem applyFold_spec (applies : List (Nat × String)) :
    ∀ (s : PageState),
      (applies.map Prod.fst).Nodup →
      (∀ p ∈ applies, mapHas s.ledger p.1 = false) →
      (applyFold s applies).attached = s.attached ∧
      (applyFold s applies).ledger = s.ledger ++ applies.filterMap (fun p =>
        if p.2 = jsTrim (s.text p.1) then none
        else some (p.1, jsTrim (s.text p.1))) ∧
      (∀ e, e ∉ applies.map Prod.fst →
        (applyFold s applies).text e = s.text e ∧
        (applyFold s applies).bg e = s.bg e) ∧
      (∀ p ∈ applies,
        (p.2 ≠ jsTrim (s.text p.1) → (applyFold s applies).text p.1 = p.2) ∧
        (p.2 = jsTrim (s.text p.1) →
          (applyFold s applies).text p.1 = s.text p.1)) := by
  induction applies with
  | nil =>
    intro s _ _
    exact ⟨rfl, by simp [applyFold], fun e _ => ⟨rfl, rfl⟩, by simp⟩
  | cons p ps ih =>
    intro s hnd hfresh
    simp only [List.map_cons, List.nodup_cons] at hnd
    obtain ⟨hpe, hnd'⟩ := hnd
    have hfresh' : ∀ q ∈ ps, mapHas s.ledger q.1 = false :=
      fun q hq => hfresh q (List.mem_cons_of_mem p hq)
    have hfold : applyFold s (p :: ps) =
        applyFold (applyQuell s p.1 p.2) ps := rfl
    by_cases hf : p.2 = jsTrim (s.text p.1)
    · have hq : applyQuell s p.1 p.2 = s := by
        simp [applyQuell, hf]
      rw [hfold, hq]
      obtain ⟨ha, hl, hu, ho⟩ := ih s hnd' hfresh'
      refine ⟨ha, ?_, ?_, ?_⟩
      · rw [hl]
        simp [List.filterMap_cons, hf]
      · intro e he
        simp only [List.map_cons, List.mem_cons] at he
        push_neg at he
        exact hu e he.2
      · intro q hq'
        rcases List.mem_cons.mp hq' with hh | ht
        · subst hh
          exact ⟨fun hne => absurd hf hne, fun _ => (hu q.1 hpe).1⟩
        · exact ho q ht
    · have hefresh : mapHas s.ledger p.1 = false :=
        hfresh p (List.mem_cons_self _ _)
      have hq : applyQuell s p.1 p.2 =
          { s with
              ledger := s.ledger ++ [(p.1, jsTrim (s.text p.1))],
              text := fun x => if x = p.1 then p.2 else s.text x,
              bg := fun x => if x = p.1 then HIGHLIGHT_COLOR else s.bg x } := by
        simp [applyQuell, hf, mapSet_fresh s.ledger p.1 _ hefresh]
      rw [hfold, hq]
      set s' : PageState :=
        { s with
            ledger := s.ledger ++ [(p.1, jsTrim (s.text p.1))],
            text := fun x => if x = p.1 then p.2 else s.text x,
            bg := fun x => if x = p.1 then HIGHLIGHT_COLOR else s.bg x }
        with hs'
      have htext_ne : ∀ x, ¬ x = p.1 → s'.text x = s.text x := by
        intro x hx
        rw [hs']
        simp [hx]
      have hbg_ne : ∀ x, ¬ x = p.1 → s'.bg x = s.bg x := by
        intro x hx
        rw [hs']
        simp [hx]
      have hfresh2 : ∀ q ∈ ps, mapHas s'.ledger q.1 = false := by
        intro q hq'
        have h1 := hfresh' q hq'
        have hmem : q.1 ∈ ps.map Prod.fst := List.mem_map_of_mem Prod.fst hq'
        have hne : ¬ p.1 = q.1 := by
          intro hh
          rw [← hh] at hmem
          exact hpe hmem
        have h2 : mapHas [(p.1, jsTrim (s.text p.1))] q.1 = false := by
          simp [mapHas, hne]
        rw [hs']
        simp only [mapHas_append, h1, h2, Bool.or_self]
      obtain ⟨ha, hl, hu, ho⟩ := ih s' hnd' hfresh2
      have hfmc : ps.filterMap (fun q =>
            if q.2 = jsTrim (s'.text q.1) then none
            else some (q.1, jsTrim (s'.text q.1))) =
          ps.filterMap (fun q =>
            if q.2 = jsTrim (s.text q.1) then none
            else some (q.1, jsTrim (s.text q.1))) := by
        apply List.filterMap_congr
        intro q hq'
        have hmem : q.1 ∈ ps.map Prod.fst := List.mem_map_of_mem Prod.fst hq'
        have hne : ¬ q.1 = p.1 := by
          intro hh
          rw [hh] at hmem
          exact hpe hmem
        rw [htext_ne q.1 hne]
      refine ⟨?_, ?_, ?_, ?_⟩
      · rw [ha, hs']
      · rw [hl, hfmc, hs']
        simp only [List.filterMap_cons, if_neg hf, List.append_assoc,
          List.singleton_append]
      · intro e he
        simp only [List.map_cons, List.mem_cons] at he
        push_neg at he
        obtain ⟨g1, g2⟩ := hu e he.2
        exact ⟨g1.trans (htext_ne e he.1), g2.trans (hbg_ne e he.1)⟩
      · intro q hq'
        rcases List.mem_cons.mp hq' with hh | ht
        · subst hh
          refine ⟨fun _ => ?_, fun heq => absurd heq hf⟩
          have g1 := (hu q.1 hpe).1
          rw [g1, hs']
          simp
        · have hmem : q.1 ∈ ps.map Prod.fst := List.mem_map_of_mem Prod.fst ht
          have hne : ¬ q.1 = p.1 := by
            intro hh
            rw [hh] at hmem
            exact hpe hmem
          obtain ⟨g1, g2⟩ := ho q ht
          rw [htext_ne q.1 hne] at g1 g2
          exact ⟨g1, fun heq => g2 heq⟩

/-! ### Claim theorems (first group) -/

/-- C10: every successful deactivation request (`RUN_FULL_QUELL` with
`isActive` false) responds with success true and `changesMade` 0,
regardless of how many elements `revertChanges` actually restored; the
reverted count is never reported. -/
theorem C10_deactivation_reports_zero (rewriterAvailable : Bool)
    (rw : Nat → String → Option String) (elems : List Nat) (s : PageState) :
    handleRunFullQuell rewriterAvailable rw elems s false =
      (revertChanges s, ⟨true, some 0, none, some "DEACTIVATED"⟩) := rfl

/-- C9: during `revertChanges`, a ledger entry whose element is detached
(no parent node) is skipped — its visible text and marker stay in the
rewritten state — yet the ledger is cleared completely afterwards, so the
recorded original of the detached element is discarded. -/
theorem C9_revert_skips_detached (s : PageState) (e : Nat)
    (hdet : s.attached e = false) (hmem : mapHas s.ledger e = true) :
    (revertChanges s).text e = s.text e ∧
    (revertChanges s).bg e = s.bg e ∧
    (revertChanges s).ledger = [] := by
  obtain ⟨h1, h2⟩ := foldl_revertStep_detached s.ledger s e hdet
  exact ⟨h1, h2, rfl⟩

/-- Witness for C9 at a concrete detached mutated element. -/
theorem C9_revert_skips_detached_witness :
    ((⟨fun _ => "rewritten", fun _ => HIGHLIGHT_COLOR, fun _ => false,
        [(0, "orig")]⟩ : PageState).attached 0 = false ∧
     mapHas (⟨fun _ => "rewritten", fun _ => HIGHLIGHT_COLOR, fun _ => false,
        [(0, "orig")]⟩ : PageState).ledger 0 = true) ∧
    ((revertChanges ⟨fun _ => "rewritten", fun _ => HIGHLIGHT_COLOR,
        fun _ => false, [(0, "orig")]⟩).text 0 =
      (⟨fun _ => "rewritten", fun _ => HIGHLIGHT_COLOR, fun _ => false,
        [(0, "orig")]⟩ : PageState).text 0 ∧
     (revertChanges ⟨fun _ => "rewritten", fun _ => HIGHLIGHT_COLOR,
        fun _ => false, [(0, "orig")]⟩).bg 0 =
      (⟨fun _ => "rewritten", fun _ => HIGHLIGHT_COLOR, fun _ => false,
        [(0, "orig")]⟩ : PageState).bg 0 ∧
     (revertChanges ⟨fun _ => "rewritten", fun _ => HIGHLIGHT_COLOR,
        fun _ => false, [(0, "orig")]⟩).ledger = []) :=
  ⟨⟨rfl, rfl⟩, C9_revert_skips_detached _ 0 rfl rfl⟩

/-- C5: the batch scheduler partitions the candidate list into consecutive
chunks of at most the batch size and yields exactly once between
consecutive chunks (never after the last); for 37 units and batch size 15
it issues exactly the chunks of sizes 15, 15 and 7 with exactly 2 yields. -/
theorem C5_batch_scheduler (bs : Nat) (units elems : List Nat)
    (rw : Nat → String → Option String) (s : PageState) (hbs : 0 < bs) :
    (chunkList bs units).flatten =units ∧
    (∀ c ∈ chunkList bs units, c.length ≤ bs ∧ c ≠ []) ∧
    (runChunks rw s (chunkList bs units)).2.2 = (chunkList bs units).length - 1 ∧
    (quellBiasOnPage rw s elems).2.2 =
      (chunkList BATCH_SIZE (selectCandidates s elems)).length - 1 ∧
    (chunkList 15 (List.range 37)).map List.length = [15, 15, 7] ∧
    (runChunks rw s (chunkList 15 (List.range 37))).2.2 = 2 := by
  obtain ⟨b, rfl⟩ : ∃ b, bs = b + 1 := ⟨bs - 1, by omega⟩
  refine ⟨chunkList_join b units, chunkList_sizes b units,
    runChunks_yields rw _ s, runChunks_yields rw _ s, by decide, ?_⟩
  rw [runChunks_yields rw _ s]
  decide

/-- Witness for C5 at batch size 15. -/
theorem C5_batch_scheduler_witness :
    0 < 15 ∧
    ((chunkList 15 (List.range 37)).flatten =List.range 37 ∧
     (∀ c ∈ chunkList 15 (List.range 37), c.length ≤ 15 ∧ c ≠ []) ∧
     (runChunks rwNone emptyPage (chunkList 15 (List.range 37))).2.2 =
       (chunkList 15 (List.range 37)).length - 1 ∧
     (quellBiasOnPage rwNone emptyPage []).2.2 =
       (chunkList BATCH_SIZE (selectCandidates emptyPage [])).length - 1 ∧
     (chunkList 15 (List.range 37)).map List.length = [15, 15, 7] ∧
     (runChunks rwNone emptyPage (chunkList 15 (List.range 37))).2.2 = 2) :=
  ⟨by decide, C5_batch_scheduler 15 (List.range 37) [] rwNone emptyPage (by decide)⟩

/-- C3 counterexample: an element whose trimmed text length is exactly the
threshold (30) is selected, not excluded — the boundary is exclusive, so
the claim that the threshold itself counts as "too short" is false. -/
theorem C3_counterexample :
    (jsTrim (thresholdPage.text 0)).length = MIN_TEXT_LENGTH ∧
    0 ∈ selectCandidates thresholdPage [0] := by
  constructor
  · decide
  · decide

/-- C3 (amended): a candidate element is selected iff its trimmed text
length is at least the threshold and it is not already in the ledger; in
particular every element with trimmed length strictly below the threshold
is excluded, and an element at exactly the threshold is included. -/
theorem C3_amended_selector_boundary (s : PageState) (elems : List Nat)
    (e : Nat) (he : e ∈ elems) :
    e ∈ selectCandidates s elems ↔
      MIN_TEXT_LENGTH ≤ (jsTrim (s.text e)).length ∧
        mapHas s.ledger e = false := by
  unfold selectCandidates
  constructor
  · intro h
    have hp := (List.mem_filter.mp h).2
    simp only [selectorIncludes, Bool.and_eq_true, decide_eq_true_eq,
      Bool.not_eq_true'] at hp
    exact hp
  · intro ⟨h1, h2⟩
    refine List.mem_filter.mpr ⟨he, ?_⟩
    simp only [selectorIncludes, Bool.and_eq_true, decide_eq_true_eq,
      Bool.not_eq_true']
    exact ⟨h1, h2⟩

/-- Witness for the amended C3 at the threshold page. -/
theorem C3_amended_selector_boundary_witness :
    (0 ∈ [0] ∧
      (0 ∈ selectCandidates thresholdPage [0] ↔
        MIN_TEXT_LENGTH ≤ (jsTrim (thresholdPage.text 0)).length ∧
          mapHas thresholdPage.ledger 0 = false)) :=
  ⟨by decide, C3_amended_selector_boundary thresholdPage [0] 0 (by decide)⟩

/-- C1 counterexample: toggling on with the rewrite capability unavailable
(at prior persisted flag `false`) does *not* produce a failure response
with the flag unchanged — the coordinator answers success and the flag has
been flipped to `true`. -/
theorem C1_counterexample :
    ¬ ((handleToggleQuell true false rwNone [] false emptyPage true).2.2.success
          = false ∧
       (∃ m, (handleToggleQuell true false rwNone [] false emptyPage
          true).2.2.error = some m ∧ m ≠ "") ∧
       (handleToggleQuell true false rwNone [] false emptyPage true).1 = false) := by
  intro h
  exact absurd h.1 (by decide)

/-- C1 (amended): when the essential rewrite capability is unavailable and
the message round-trip works, the content script itself answers
`{success: false, error: <non-empty>}` and leaves the page untouched, but
the background coordinator — which persisted `isQuellActive := newState`
before messaging and never inspects the content response's success flag —
replies `{success: true, changesMade: undefined}` to the popup, and the
persisted flag ends up `true` (the requested state) regardless of its
prior value. -/
theorem C1_amended_toggle_failure (rw : Nat → String → Option String)
    (elems : List Nat) (persistedBefore : Bool) (s : PageState) :
    handleRunFullQuell false rw elems s true =
      (s, ⟨false, none, some initFailMsg, none⟩) ∧
    initFailMsg ≠ "" ∧
    handleToggleQuell true false rw elems persistedBefore s true =
      (true, s, ⟨true, none, none, some "ACTIVATED"⟩) := by
  refine ⟨rfl, by decide, rfl⟩

/-- C8: an input blob shorter than the 50-character minimum is rejected
with an explicit non-empty error message before any AI session is created
or invoked, and no result is rendered. -/
theorem C8_short_input_rejected (o : AIOracles) (rawText : String)
    (hshort : rawText.length < 50) :
    processTextWithAI o rawText =
      [SwEffect.displayError (errPrefix ++ tooShortMsg)] ∧
    errPrefix ++ tooShortMsg ≠ "" ∧
    ∀ ef ∈ processTextWithAI o rawText,
      isSessionEffect ef = false ∧ isResultEffect ef = false := by
  have h : processTextWithAI o rawText =
      [SwEffect.displayError (errPrefix ++ tooShortMsg)] := by
    unfold processTextWithAI
    simp [hshort]
  refine ⟨h, by decide, ?_⟩
  rw [h]
  intro ef hef
  simp only [List.mem_singleton] at hef
  subst hef
  exact ⟨rfl, rfl⟩

/-- Witness for C8 on a 2-character input. -/
theorem C8_short_input_rejected_witness :
    ("hi".length < 50) ∧
    (processTextWithAI okOracles "hi" =
        [SwEffect.displayError (errPrefix ++ tooShortMsg)] ∧
      errPrefix ++ tooShortMsg ≠ "" ∧
      ∀ ef ∈ processTextWithAI okOracles "hi",
        isSessionEffect ef = false ∧ isResultEffect ef = false) :=
  ⟨by decide, C8_short_input_rejected okOracles "hi" (by decide)⟩

/-! ### Helper lemmas about the apply-sequence ledger -/

theorem filterMap_guard_keys (s : PageState) (applies : List (Nat × String)) :
    (applies.filterMap (fun p =>
      if p.2 = jsTrim (s.text p.1) then none
      else some (p.1, jsTrim (s.text p.1)))).map Prod.fst =
    (applies.filter
      (fun p => !(decide (p.2 = jsTrim (s.text p.1))))).map Prod.fst := by
  induction applies with
  | nil => rfl
  | cons p ps ih =>
    simp only [List.filterMap_cons, List.filter_cons]
    by_cases hp : p.2 = jsTrim (s.text p.1)
    · simp [hp, ih]
    · simp [hp, ih]

theorem mem_filterMap_guard_val (s : PageState) (applies : List (Nat × String))
    (e : Nat) (o : String)
    (h : (e, o) ∈ applies.filterMap (fun p =>
      if p.2 = jsTrim (s.text p.1) then none
      else some (p.1, jsTrim (s.text p.1)))) : o = jsTrim (s.text e) := by
  obtain ⟨p, _, hfp⟩ := List.mem_filterMap.mp h
  by_cases hc : p.2 = jsTrim (s.text p.1)
  · simp [hc] at hfp
  · simp only [if_neg hc, Option.some.injEq, Prod.mk.injEq] at hfp
    obtain ⟨h1, h2⟩ := hfp
    rw [← h2, ← h1]

theorem mapHas_filterMap_guard (s : PageState) (applies : List (Nat × String))
    (p : Nat × String) (hp : p ∈ applies)
    (hne : p.2 ≠ jsTrim (s.text p.1)) :
    mapHas (applies.filterMap (fun q =>
      if q.2 = jsTrim (s.text q.1) then none
      else some (q.1, jsTrim (s.text q.1)))) p.1 = true := by
  rw [mapHas_iff_mem]
  have hmem : (p.1, jsTrim (s.text p.1)) ∈ applies.filterMap (fun q =>
      if q.2 = jsTrim (s.text q.1) then none
      else some (q.1, jsTrim (s.text q.1))) :=
    List.mem_filterMap.mpr ⟨p, hp, by simp [hne]⟩
  have hfst := List.mem_map_of_mem Prod.fst hmem
  simpa using hfst

/-! ### Claim theorems (second group) -/

/-- C2 counterexample: one `apply` on a unit whose visible text carries
surrounding whitespace, followed by `revertChanges`, leaves the unit's
text equal to the *trimmed* original — not exactly its pre-mutation
value — because the ledger records `element.textContent.trim()`. -/
theorem C2_counterexample :
    mapHas (applyFold paddedPage [(0, "neutral text")]).ledger 0 = true ∧
    (revertChanges (applyFold paddedPage [(0, "neutral text")])).ledger = [] ∧
    (revertChanges (applyFold paddedPage [(0, "neutral text")])).text 0 ≠
      paddedPage.text 0 := by
  refine ⟨by decide, rfl, by decide⟩

/-- C2 (amended): after any sequence of applies on distinct units starting
from an empty ledger with every unit attached, `revertChanges` restores
every mutated unit's visible text to the *trimmed* pre-mutation text (the
value recorded in the ledger — equal to the pre-mutation text exactly when
that text has no surrounding whitespace), leaves unmutated units' text at
its pre-mutation value, empties the ledger, and a second `revertChanges`
is a no-op that raises no error. -/
theorem C2_amended_revert_restores_trimmed (s : PageState)
    (applies : List (Nat × String)) (hled : s.ledger = [])
    (hnd : (applies.map Prod.fst).Nodup) (hatt : ∀ e, s.attached e = true) :
    (∀ e, mapHas (applyFold s applies).ledger e = true →
      (revertChanges (applyFold s applies)).text e = jsTrim (s.text e)) ∧
    (∀ e, mapHas (applyFold s applies).ledger e = false →
      (revertChanges (applyFold s applies)).text e = s.text e) ∧
    (revertChanges (applyFold s applies)).ledger = [] ∧
    revertChanges (revertChanges (applyFold s applies)) =
      revertChanges (applyFold s applies) := by
  have hfresh : ∀ p ∈ applies, mapHas s.ledger p.1 = false := by
    intro p _
    rw [hled]
    rfl
  obtain ⟨ha, hl, hu, ho⟩ := applyFold_spec applies s hnd hfresh
  rw [hled, List.nil_append] at hl
  have hkeysnd : ((applyFold s applies).ledger.map Prod.fst).Nodup := by
    rw [hl, filterMap_guard_keys]
    exact hnd.sublist ((List.filter_sublist applies).map Prod.fst)
  refine ⟨?_, ?_, rfl, ?_⟩
  · intro e he
    rw [mapHas_iff_mem] at he
    obtain ⟨q, hq, hq1⟩ := List.mem_map.mp he
    have hqpair : (e, q.2) ∈ (applyFold s applies).ledger := by
      rw [← hq1]
      simpa using hq
    have hval : q.2 = jsTrim (s.text e) := by
      apply mem_filterMap_guard_val s applies e q.2
      rw [← hl]
      exact hqpair
    have hatt1 : (applyFold s applies).attached e = true := by
      rw [ha]
      exact hatt e
    have := foldl_revertStep_restore (applyFold s applies).ledger
      (applyFold s applies) e q.2 hqpair hkeysnd hatt1
    rw [← hval]
    exact this
  · intro e he
    rw [mapHas_eq_false_iff] at he
    have hrev := foldl_revertStep_not_mem (applyFold s applies).ledger
      (applyFold s applies) e he
    refine hrev.1.trans ?_
    by_cases hmem : e ∈ applies.map Prod.fst
    · obtain ⟨p, hp, hp1⟩ := List.mem_map.mp hmem
      by_cases hpc : p.2 = jsTrim (s.text p.1)
      · have := (ho p hp).2 hpc
        rw [hp1] at this
        exact this
      · exfalso
        have hhas := mapHas_filterMap_guard s applies p hp hpc
        rw [← hl, hp1] at hhas
        exact he ((mapHas_iff_mem _ _).mp hhas)
    · exact (hu e hmem).1
  · apply revertChanges_of_ledger_nil
    rfl

/-- Witness for the amended C2 on one whitespace-padded unit. -/
theorem C2_amended_revert_restores_trimmed_witness :
    (paddedPage.ledger = [] ∧
      (([(0, "neutral text")] : List (Nat × String)).map Prod.fst).Nodup ∧
      (∀ e, paddedPage.attached e = true)) ∧
    ((∀ e, mapHas (applyFold paddedPage [(0, "neutral text")]).ledger e =
        true →
      (revertChanges (applyFold paddedPage [(0, "neutral text")])).text e =
        jsTrim (paddedPage.text e)) ∧
    (∀ e, mapHas (applyFold paddedPage [(0, "neutral text")]).ledger e =
        false →
      (revertChanges (applyFold paddedPage [(0, "neutral text")])).text e =
        paddedPage.text e) ∧
    (revertChanges (applyFold paddedPage [(0, "neutral text")])).ledger =
      [] ∧
    revertChanges (revertChanges (applyFold paddedPage
      [(0, "neutral text")])) =
      revertChanges (applyFold paddedPage [(0, "neutral text")])) :=
  ⟨⟨rfl, by decide, fun _ => rfl⟩,
    C2_amended_revert_restores_trimmed paddedPage [(0, "neutral text")] rfl
      (by decide) (fun _ => rfl)⟩

/-- C4: running the full-page pipeline a second time without an
intervening revert selects no unit already present in the ledger; ledger
keys stay pairwise distinct after each run (at most one entry per unit);
and no existing entry's recorded original is ever overwritten by either
run. -/
theorem C4_second_run_skips_and_never_overwrites
    (rw rw2 : Nat → String → Option String) (s : PageState)
    (elems : List Nat) (hnd : elems.Nodup)
    (hkeys : (ledgerKeys s.ledger).Nodup) :
    (∀ e, mapHas (quellBiasOnPage rw s elems).1.ledger e = true →
      e ∉ selectCandidates (quellBiasOnPage rw s elems).1 elems) ∧
    (ledgerKeys (quellBiasOnPage rw s elems).1.ledger).Nodup ∧
    (ledgerKeys (quellBiasOnPage rw2 (quellBiasOnPage rw s elems).1
      elems).1.ledger).Nodup ∧
    (∀ e, mapHas s.ledger e = true →
      mapGet (quellBiasOnPage rw s elems).1.ledger e = mapGet s.ledger e) ∧
    (∀ e, mapHas (quellBiasOnPage rw s elems).1.ledger e = true →
      mapGet (quellBiasOnPage rw2 (quellBiasOnPage rw s elems).1
          elems).1.ledger e =
        mapGet (quellBiasOnPage rw s elems).1.ledger e) := by
  refine ⟨?_, ?_, ?_, ?_, ?_⟩
  · intro e he hmem
    have hfr := selectCandidates_fresh (quellBiasOnPage rw s elems).1
      elems e hmem
    rw [he] at hfr
    exact Bool.noConfusion hfr
  · exact quellBiasOnPage_ledger_keys_nodup rw s elems hnd hkeys
  · exact quellBiasOnPage_ledger_keys_nodup rw2 _ elems hnd
      (quellBiasOnPage_ledger_keys_nodup rw s elems hnd hkeys)
  · intro e he
    exact quellBiasOnPage_preserves_ledger rw s elems hnd e he
  · intro e he
    exact quellBiasOnPage_preserves_ledger rw2 _ elems hnd e he

/-- Witness for C4 on a one-element page actually mutated by the first
run. -/
theorem C4_second_run_skips_and_never_overwrites_witness :
    (([0] : List Nat).Nodup ∧ (ledgerKeys thresholdPage.ledger).Nodup) ∧
    ((∀ e, mapHas (quellBiasOnPage rwConst thresholdPage [0]).1.ledger e =
        true →
      e ∉ selectCandidates (quellBiasOnPage rwConst thresholdPage [0]).1
        [0]) ∧
    (ledgerKeys (quellBiasOnPage rwConst thresholdPage [0]).1.ledger).Nodup ∧
    (ledgerKeys (quellBiasOnPage rwConst
      (quellBiasOnPage rwConst thresholdPage [0]).1 [0]).1.ledger).Nodup ∧
    (∀ e, mapHas thresholdPage.ledger e = true →
      mapGet (quellBiasOnPage rwConst thresholdPage [0]).1.ledger e =
        mapGet thresholdPage.ledger e) ∧
    (∀ e, mapHas (quellBiasOnPage rwConst thresholdPage [0]).1.ledger e =
        true →
      mapGet (quellBiasOnPage rwConst
          (quellBiasOnPage rwConst thresholdPage [0]).1 [0]).1.ledger e =
        mapGet (quellBiasOnPage rwConst thresholdPage [0]).1.ledger e)) :=
  ⟨⟨by decide, by decide⟩,
    C4_second_run_skips_and_never_overwrites rwConst rwConst thresholdPage
      [0] (by decide) (by decide)⟩

/-- C6: a unit whose rewrite request fails is caught and treated as
unchanged — no ledger entry, no text or marker mutation — while every
other selected unit is still processed (a successful differing rewrite
still lands), and the count the run returns equals the number of selected
units whose final trimmed text differs from their trimmed original. -/
theorem C6_failures_skipped_and_count (rw : Nat → String → Option String)
    (s : PageState) (elems : List Nat) (hnd : elems.Nodup) :
    (∀ e ∈ selectCandidates s elems, rw e (origQ s e) = none →
      mapHas (quellBiasOnPage rw s elems).1.ledger e = false ∧
      (quellBiasOnPage rw s elems).1.text e = s.text e ∧
      (quellBiasOnPage rw s elems).1.bg e = s.bg e) ∧
    (∀ e ∈ selectCandidates s elems, ∀ t, rw e (origQ s e) = some t →
      jsTrim t ≠ origQ s e →
      (quellBiasOnPage rw s elems).1.text e = jsTrim t) ∧
    (quellBiasOnPage rw s elems).2.1 =
      ((selectCandidates s elems).filter (fun e =>
        decide (jsTrim ((quellBiasOnPage rw s elems).1.text e) ≠
          jsTrim (s.text e)))).length := by
  obtain ⟨ha, hl, hc, hu, ho⟩ := quellBiasOnPage_spec rw s elems hnd
  refine ⟨?_, ?_, ?_⟩
  · intro e he h
    have hm : mutQ rw s e = false := by
      unfold mutQ
      rw [h]
    have hx := (ho e he).2 hm
    refine ⟨?_, hx.1, hx.2⟩
    rw [hl, mapHas_append]
    have h1 : mapHas s.ledger e = false := selectCandidates_fresh s elems e he
    have h2 : mapHas (((selectCandidates s elems).filter (mutQ rw s)).map
        (fun x => (x, origQ s x))) e = false := by
      rw [mapHas_eq_false_iff, map_fst_pairs]
      intro hmem
      have hmq := (List.mem_filter.mp hmem).2
      rw [hm] at hmq
      exact Bool.noConfusion hmq
    rw [h1, h2]
    rfl
  · intro e he t h hne
    have hm : mutQ rw s e = true := by
      unfold mutQ
      rw [h]
      exact decide_eq_true hne
    have hfq : finalQ rw s e = jsTrim t := by
      unfold finalQ
      rw [h]
    rw [((ho e he).1 hm).1, hfq]
  · rw [hc]
    apply congrArg List.length
    apply List.filter_congr
    intro e he
    cases h : rw e (origQ s e) with
    | none =>
      have hm : mutQ rw s e = false := by
        unfold mutQ
        rw [h]
      have hx := (ho e he).2 hm
      rw [hm, hx.1]
      simp
    | some t =>
      by_cases hne : jsTrim t = origQ s e
      · have hm : mutQ rw s e = false := by
          unfold mutQ
          rw [h]
          simp [hne]
        have hx := (ho e he).2 hm
        rw [hm, hx.1]
        simp
      · have hm : mutQ rw s e = true := by
          unfold mutQ
          rw [h]
          exact decide_eq_true hne
        have hx := (ho e he).1 hm
        have hfq : finalQ rw s e = jsTrim t := by
          unfold finalQ
          rw [h]
        rw [hm, hx.1, hfq, jsTrim_idem]
        have hne2 : jsTrim t ≠ jsTrim (s.text e) := hne
        exact (decide_eq_true hne2).symm

/-- Witness for C6 on a page whose only request fails. -/
theorem C6_failures_skipped_and_count_witness :
    (([0] : List Nat).Nodup) ∧
    ((∀ e ∈ selectCandidates thresholdPage [0],
      rwNone e (origQ thresholdPage e) = none →
      mapHas (quellBiasOnPage rwNone thresholdPage [0]).1.ledger e = false ∧
      (quellBiasOnPage rwNone thresholdPage [0]).1.text e =
        thresholdPage.text e ∧
      (quellBiasOnPage rwNone thresholdPage [0]).1.bg e =
        thresholdPage.bg e) ∧
    (∀ e ∈ selectCandidates thresholdPage [0], ∀ t,
      rwNone e (origQ thresholdPage e) = some t →
      jsTrim t ≠ origQ thresholdPage e →
      (quellBiasOnPage rwNone thresholdPage [0]).1.text e = jsTrim t) ∧
    (quellBiasOnPage rwNone thresholdPage [0]).2.1 =
      ((selectCandidates thresholdPage [0]).filter (fun e =>
        decide (jsTrim ((quellBiasOnPage rwNone thresholdPage [0]).1.text e) ≠
          jsTrim (thresholdPage.text e)))).length) :=
  ⟨by decide, C6_failures_skipped_and_count rwNone thresholdPage [0]
    (by decide)⟩

/-- C7: a unit whose final rewritten text equals its original text after
trimming gets no ledger entry, and its visible text and highlight marker
are left unaltered by the run. -/
theorem C7_no_change_no_entry (rw : Nat → String → Option String)
    (s : PageState) (elems : List Nat) (e : Nat) (hnd : elems.Nodup)
    (hres : ∀ t, rw e (origQ s e) = some t → jsTrim t = origQ s e) :
    mapGet (quellBiasOnPage rw s elems).1.ledger e = mapGet s.ledger e ∧
    (quellBiasOnPage rw s elems).1.text e = s.text e ∧
    (quellBiasOnPage rw s elems).1.bg e = s.bg e := by
  obtain ⟨ha, hl, hc, hu, ho⟩ := quellBiasOnPage_spec rw s elems hnd
  have hm : mutQ rw s e = false := by
    unfold mutQ
    cases h : rw e (origQ s e) with
    | none => rfl
    | some t => simp [hres t h]
  have hledg : mapGet (quellBiasOnPage rw s elems).1.ledger e =
      mapGet s.ledger e := by
    rw [hl]
    apply mapGet_append_right_none
    rw [mapHas_eq_false_iff, map_fst_pairs]
    intro hmem
    have hmq := (List.mem_filter.mp hmem).2
    rw [hm] at hmq
    exact Bool.noConfusion hmq
  by_cases hce : e ∈ selectCandidates s elems
  · exact ⟨hledg, ((ho e hce).2 hm).1, ((ho e hce).2 hm).2⟩
  · exact ⟨hledg, (hu e hce).1, (hu e hce).2⟩

/-- Witness for C7 with a failing request (vacuously an unchanged
rewrite) on the threshold page. -/
theorem C7_no_change_no_entry_witness :
    (([0] : List Nat).Nodup ∧
      (∀ t, rwNone 0 (origQ thresholdPage 0) = some t →
        jsTrim t = origQ thresholdPage 0)) ∧
    (mapGet (quellBiasOnPage rwNone thresholdPage [0]).1.ledger 0 =
      mapGet thresholdPage.ledger 0 ∧
    (quellBiasOnPage rwNone thresholdPage [0]).1.text 0 =
      thresholdPage.text 0 ∧
    (quellBiasOnPage rwNone thresholdPage [0]).1.bg 0 =
      thresholdPage.bg 0) :=
  ⟨⟨by decide, fun t ht => Option.noConfusion ht⟩,
    C7_no_change_no_entry rwNone thresholdPage [0] 0 (by decide)
      (fun t ht => Option.noConfusion ht)⟩

end BiasQuell
